import Mathlib

/-!
Shallow embedding of the Novera retrieval pipeline
(src/backend/app/services/retrieval/{hybrid_search,vector_search,pipeline}.py).

Python floats are modelled as rationals (ℚ); Python dicts with a fixed key
universe are modelled as structures whose possibly-absent keys are `Option`
fields; Python's insertion-ordered `dict` of candidates keyed by chunk id is
modelled as an association list of chunk records with unique ids, in
insertion order.
-/

namespace Novera

/-- A retrieval-layer chunk dictionary.  Fields that may be absent from a
given dict (for example `token_count` on the dicts built by
`get_chunk_neighbors`) are `Option`; `none` models the key being absent. -/
structure RChunk where
  chunk_id : String := ""
  document_id : String := ""
  content : String := ""
  chunk_type : String := "text"
  chunk_index : Option Int := none
  page_numbers : List Nat := []
  section_title : Option String := none
  token_count : Option Nat := none
  similarity_score : Option ℚ := none
  semantic_rank : Option Nat := none
  semantic_score : Option ℚ := none
  keyword_rank : Option Nat := none
  keyword_score : Option ℚ := none
  fused_score : Option ℚ := none
  rerank_score : Option ℚ := none
  retrieval_method : List String := []
  is_target : Option Bool := none
  is_expanded_context : Option Bool := none
  parent_chunk_id : Option String := none
  doc_title : Option String := none
  doc_type : Option String := none
  department : Option String := none
deriving DecidableEq, Repr

/-- Configuration defaults from `app/core/config.py`. -/
def hybrid_alpha : ℚ := 7/10

def retrieval_top_k : Nat := 20

def rerank_top_k : Nat := 8

def similarity_threshold : ℚ := 7/10

def max_context_tokens : Nat := 12000

/-- The RRF constant set in `HybridSearchService.__init__` (`self.rrf_k = 60`). -/
def rrf_k : Nat := 60

/-! ### Stable sorting, modelling Python's `sorted(..., reverse=True)`

Python's `sorted` is a stable sort; with `reverse=True` the result is
descending in the key, elements with equal keys keeping their original
relative order.  `sortDescBy lt` is a stable insertion sort that places `x`
before `y` exactly when `lt x y = false` (that is, `key x ≥ key y`). -/

def insertDescBy (lt : α → α → Bool) (x : α) : List α → List α
  | [] => [x]
  | y :: ys => if lt x y then y :: insertDescBy lt x ys else x :: y :: ys

def sortDescBy (lt : α → α → Bool) (l : List α) : List α :=
  l.foldr (insertDescBy lt) []

/-- Ascending stable sort (models SQL `ORDER BY ... ASC` as produced for
the neighbor query). -/
def insertAscBy (lt : α → α → Bool) (x : α) : List α → List α
  | [] => [x]
  | y :: ys => if lt y x then y :: insertAscBy lt x ys else x :: y :: ys

def sortAscBy (lt : α → α → Bool) (l : List α) : List α :=
  l.foldr (insertAscBy lt) []

/-! ### Fusion pool construction (`HybridSearchService.search`, steps 1–2)

`results` is a Python dict keyed by `chunk_id`; we model it as a list of
`RChunk` in insertion order with unique ids.  Each channel loop enumerates
its result list from rank 1 and either inserts a copy of the chunk dict or
updates the rank/score fields of the existing entry. -/

/-- `results[chunk_id]['semantic_rank'] = idx; ... ['semantic_score'] = chunk['similarity_score']`. -/
def updSem (idx : Nat) (src tgt : RChunk) : RChunk :=
  { tgt with semantic_rank := some idx, semantic_score := src.similarity_score }

/-- `results[chunk_id]['keyword_rank'] = idx; ... ['keyword_score'] = chunk.get('keyword_score', 0)`. -/
def updKw (idx : Nat) (src tgt : RChunk) : RChunk :=
  { tgt with keyword_rank := some idx, keyword_score := some (src.keyword_score.getD 0) }

def poolHas (pool : List RChunk) (cid : String) : Bool :=
  pool.any (fun r => r.chunk_id == cid)

def upsertSem (pool : List RChunk) (idx : Nat) (c : RChunk) : List RChunk :=
  if poolHas pool c.chunk_id then
    pool.map (fun r => if r.chunk_id == c.chunk_id then updSem idx c r else r)
  else
    pool ++ [updSem idx c c]

def upsertKw (pool : List RChunk) (idx : Nat) (c : RChunk) : List RChunk :=
  if poolHas pool c.chunk_id then
    pool.map (fun r => if r.chunk_id == c.chunk_id then updKw idx c r else r)
  else
    pool ++ [updKw idx c c]

/-- `for idx, chunk in enumerate(semantic_results, 1): ...` -/
def addSemanticResults (pool : List RChunk) (idx : Nat) : List RChunk → List RChunk
  | [] => pool
  | c :: cs => addSemanticResults (upsertSem pool idx c) (idx + 1) cs

/-- `for idx, chunk in enumerate(keyword_results, 1): ...` -/
def addKeywordResults (pool : List RChunk) (idx : Nat) : List RChunk → List RChunk
  | [] => pool
  | c :: cs => addKeywordResults (upsertKw pool idx c) (idx + 1) cs

/-- The combined candidate pool of `HybridSearchService.search` after both
channel loops, given the two channels' result lists. -/
def buildPool (sem kw : List RChunk) (use_semantic use_keyword : Bool) : List RChunk :=
  let r0 := if use_semantic then addSemanticResults [] 1 sem else []
  if use_keyword then addKeywordResults r0 1 kw else r0

/-! ### Reciprocal Rank Fusion (`HybridSearchService._reciprocal_rank_fusion`) -/

/-- The RRF score accumulated for one chunk entry:
semantic contribution `alpha * 1/(rrf_k + semantic_rank)` when
`'semantic_rank' in chunk`, plus keyword contribution
`(1 - alpha) * 1/(rrf_k + keyword_rank)` when `'keyword_rank' in chunk`. -/
def rrfScore (alpha : ℚ) (c : RChunk) : ℚ :=
  (match c.semantic_rank with
    | some r => (1 / ((rrf_k : ℚ) + r)) * alpha
    | none => 0)
  + (match c.keyword_rank with
    | some r => (1 / ((rrf_k : ℚ) + r)) * (1 - alpha)
    | none => 0)

def fuseChunk (alpha : ℚ) (c : RChunk) : RChunk :=
  { c with
    fused_score := some (rrfScore alpha c),
    retrieval_method :=
      (if c.semantic_rank.isSome then ["semantic"] else []) ++
      (if c.keyword_rank.isSome then ["keyword"] else []) }

def reciprocal_rank_fusion (alpha : ℚ) (pool : List RChunk) : List RChunk :=
  pool.map (fuseChunk alpha)

/-- The Fusion Engine's full (untruncated) output: the deduplicated candidate
pool with fused scores attached. -/
def fusionPool (alpha : ℚ) (sem kw : List RChunk) : List RChunk :=
  reciprocal_rank_fusion alpha (buildPool sem kw true true)

def fusedLt (a b : RChunk) : Bool :=
  decide (a.fused_score.getD 0 < b.fused_score.getD 0)

/-- `HybridSearchService.search`, as a function of the two channels' result
lists: build the pool, fuse, sort descending by `fused_score`, take `k`. -/
def hybridSearch (alpha : ℚ) (k : Nat) (sem kw : List RChunk)
    (use_semantic use_keyword : Bool) : List RChunk :=
  (sortDescBy fusedLt
    (reciprocal_rank_fusion alpha (buildPool sem kw use_semantic use_keyword))).take k

/-! ### Vector search (`VectorSearchService.search_similar_chunks`)

The SQL query is modelled relationally: the database is the joined relation
`Chunk ⋈ Document` with the cosine similarity of each chunk to the query
embedding precomputed by the store (the embedding arithmetic itself is
external to this service).  The query filters on document status and the
optional filters, orders by similarity descending, limits to `k`; the Python
loop then drops rows below the similarity threshold while formatting. -/

/-- One row of the joined `Chunk`/`Document` relation together with the
`1 - cosine_distance(embedding, query_embedding)` similarity computed by
the store for the current query embedding. -/
structure VRow where
  chunk_id : String := ""
  document_id : String := ""
  content : String := ""
  chunk_type : String := "text"
  chunk_index : Int := 0
  page_numbers : List Nat := []
  section_title : Option String := none
  token_count : Nat := 0
  doc_status : String := "completed"
  doc_filename : String := ""
  doc_doc_type : Option String := none
  doc_department : Option String := none
  similarity : ℚ := 0
deriving DecidableEq, Repr

def simLt (a b : VRow) : Bool := decide (a.similarity < b.similarity)

/-- The chunk dictionary built for each surviving row (it records
`token_count` and `similarity_score`, and copies document metadata). -/
def mkVectorChunk (r : VRow) : RChunk :=
  { chunk_id := r.chunk_id
    document_id := r.document_id
    content := r.content
    chunk_type := r.chunk_type
    page_numbers := r.page_numbers
    section_title := r.section_title
    token_count := some r.token_count
    similarity_score := some r.similarity
    doc_title := some r.doc_filename
    doc_type := r.doc_doc_type
    department := r.doc_department }

/-- One optional equality filter of the query (`if doc_type: query =
query.where(Document.doc_type == doc_type)`).  Python treats `None` and the
empty string as falsy, so both leave the query unfiltered. -/
def filterOptStr (q : List VRow) (key : VRow → Option String) : Option String → List VRow
  | some t => if t == "" then q else q.filter (fun r => key r == some t)
  | none => q

/-- `if document_ids: query = query.where(Document.id.in_(document_ids))`;
an empty list is falsy and leaves the query unfiltered. -/
def filterDocIds (q : List VRow) : Option (List String) → List VRow
  | some ids => if ids.isEmpty then q else q.filter (fun r => ids.contains r.document_id)
  | none => q

/-- `VectorSearchService.search_similar_chunks`. -/
def search_similar_chunks (db : List VRow) (k : Nat)
    (doc_type department : Option String) (document_ids : Option (List String))
    (threshold : ℚ) : List RChunk :=
  let q := db.filter (fun r => r.doc_status == "completed")
  let q := filterOptStr q (fun r => r.doc_doc_type) doc_type
  let q := filterOptStr q (fun r => r.doc_department) department
  let q := filterDocIds q document_ids
  let rows := (sortDescBy simLt q).take k
  rows.filterMap (fun r =>
    if r.similarity < threshold then none else some (mkVectorChunk r))

/-! ### Neighbor lookup (`VectorSearchService.get_chunk_neighbors`)

The relational store holds chunk rows and document rows; the target lookup
is an inner join on `Chunk.document_id = Document.id` filtered to the target
chunk id, taking the first row. -/

structure StoredChunk where
  id : String := ""
  document_id : String := ""
  content : String := ""
  chunk_type : String := "text"
  chunk_index : Int := 0
  page_numbers : List Nat := []
  section_title : Option String := none
deriving DecidableEq, Repr

structure StoredDoc where
  id : String := ""
  filename : String := ""
  doc_type : Option String := none
  department : Option String := none
  status : String := "completed"
deriving DecidableEq, Repr

structure RelStore where
  chunks : List StoredChunk := []
  documents : List StoredDoc := []
deriving DecidableEq, Repr

/-- `select(Chunk, Document).join(...).where(Chunk.id == chunk_id)` followed
by `.first()`. -/
def lookupTargetRow (ndb : RelStore) (cid : String) :
    Option (StoredChunk × StoredDoc) :=
  (ndb.chunks.filterMap (fun ch =>
    (ndb.documents.find? (fun d => d.id == ch.document_id)).map (fun d => (ch, d)))).find?
    (fun p => p.1.id == cid)

def idxLt (a b : StoredChunk) : Bool := decide (a.chunk_index < b.chunk_index)

/-- The dictionary built for each neighbor row.  Note: it has no
`token_count` key, and its metadata carries only the document title. -/
def mkNeighborChunk (cid : String) (document : StoredDoc) (ch : StoredChunk) : RChunk :=
  { chunk_id := ch.id
    document_id := ch.document_id
    content := ch.content
    chunk_type := ch.chunk_type
    chunk_index := some ch.chunk_index
    page_numbers := ch.page_numbers
    section_title := ch.section_title
    is_target := some (ch.id == cid)
    doc_title := some document.filename }

/-- `VectorSearchService.get_chunk_neighbors`. -/
def get_chunk_neighbors (ndb : RelStore) (cid : String)
    (n_before n_after : Nat) : List RChunk :=
  match lookupTargetRow ndb cid with
  | none => []
  | some (target, document) =>
      let neighbors := sortAscBy idxLt (ndb.chunks.filter (fun ch =>
        ch.document_id == target.document_id &&
        decide (target.chunk_index - (n_before : Int) ≤ ch.chunk_index) &&
        decide (ch.chunk_index ≤ target.chunk_index + (n_after : Int))))
      neighbors.map (mkNeighborChunk cid document)

/-! ### Context expansion (`HybridSearchService.search_with_context_expansion`) -/

structure ExpState where
  expanded : List RChunk := []
  seen : List String := []
deriving DecidableEq, Repr

/-- The body of the inner `for neighbor in neighbors:` loop. -/
def addNeighbor (result : RChunk) (s : ExpState) (n : RChunk) : ExpState :=
  if s.seen.contains n.chunk_id then s
  else
    let tgt := n.is_target.getD false
    let n := { n with
      is_expanded_context := some (!tgt),
      parent_chunk_id := if tgt then none else some result.chunk_id }
    let n := if tgt then
        { n with
          fused_score := result.fused_score,
          semantic_score := result.semantic_score,
          keyword_score := result.keyword_score,
          retrieval_method := result.retrieval_method }
      else n
    { expanded := s.expanded ++ [n], seen := s.seen ++ [n.chunk_id] }

/-- One iteration of `for result in initial_results[:5]`. -/
def expandOne (ndb : RelStore) (s : ExpState) (result : RChunk) : ExpState :=
  let neighbors := get_chunk_neighbors ndb result.chunk_id 1 1
  neighbors.foldl (addNeighbor result) s

/-- One iteration of `for result in initial_results[5:]`. -/
def passThrough (s : ExpState) (result : RChunk) : ExpState :=
  if s.seen.contains result.chunk_id then s
  else
    { expanded := s.expanded ++ [{ result with is_expanded_context := some false }],
      seen := s.seen ++ [result.chunk_id] }

/-- The expansion phase of `search_with_context_expansion` applied to the
initial hybrid-search results. -/
def expandResults (ndb : RelStore) (initial : List RChunk) : List RChunk :=
  let s := (initial.take 5).foldl (expandOne ndb) {}
  ((initial.drop 5).foldl passThrough s).expanded

/-- `HybridSearchService.search_with_context_expansion`.  The inner call
`self.search(query=query, db=db, top_k=top_k)` leaves `use_semantic`,
`use_keyword`, `doc_type` and `department` at their defaults, so the keyword
channel oracle is consulted without filters and the vector channel is
searched without filters. -/
def search_with_context_expansion (vdb : List VRow) (ndb : RelStore)
    (kwSearch : Nat → Option String → Option String → List RChunk)
    (alpha threshold : ℚ) (k : Nat) (expand_neighbors : Bool) : List RChunk :=
  let sem := search_similar_chunks vdb (k * 2) none none none threshold
  let kw := kwSearch k none none
  let initial := hybridSearch alpha k sem kw true true
  if !expand_neighbors then initial
  else expandResults ndb initial

/-! ### Retrieval pipeline (`RetrievalPipeline`)

`query_processor.process_query` lives outside the retrieval sources; its
output dictionary is taken as an input here: an intent string, a complexity
string, and the set of entity keys (`'amount' in processed_query.get('entities', {})`
only inspects the keys). -/

structure ProcessedQuery where
  intent : String := "general"
  complexity : String := "simple"
  entities : List String := []
deriving DecidableEq, Repr

/-- `get_priority` inside `_prioritize_chunks`: a `(priority, rerank_score)`
pair, compared lexicographically as Python compares tuples. -/
def getPriority (pq : ProcessedQuery) (c : RChunk) : Nat × ℚ :=
  let has_financial_entities := pq.entities.contains "amount"
  let priority : Nat :=
    if c.chunk_type == "table" &&
        ((pq.intent == "financial" || pq.intent == "analytical") || has_financial_entities)
    then 0 + 1000 else 0
  (priority, c.rerank_score.getD (c.fused_score.getD 0))

def tupLt (a b : Nat × ℚ) : Bool :=
  decide (a.1 < b.1) || (a.1 == b.1 && decide (a.2 < b.2))

def priLt (pq : ProcessedQuery) (a b : RChunk) : Bool :=
  tupLt (getPriority pq a) (getPriority pq b)

/-- `RetrievalPipeline._prioritize_chunks`: `sorted(chunks, key=get_priority, reverse=True)`. -/
def prioritize_chunks (chunks : List RChunk) (pq : ProcessedQuery) : List RChunk :=
  sortDescBy (priLt pq) chunks

/-- `RetrievalPipeline._format_chunk_for_context`. -/
def format_chunk_for_context (c : RChunk) : String :=
  let header_parts : List String :=
    (match c.doc_title with
      | some t => if t == "" then [] else ["Document: " ++ t]
      | none => []) ++
    (match c.section_title with
      | some t => if t == "" then [] else ["Section: " ++ t]
      | none => []) ++
    (match c.page_numbers with
      | [] => []
      | [p] => ["Page: " ++ toString p]
      | p :: rest => ["Pages: " ++ toString p ++ "-" ++ toString (rest.getLastD p)]) ++
    (if c.chunk_type != "text" && c.chunk_type != "" then ["Type: " ++ c.chunk_type] else [])
  if header_parts.isEmpty then c.content
  else "[" ++ String.intercalate " | " header_parts ++ "]\n" ++ c.content

/-- The source entry `{document, page, section, chunk_id}` tracked for each
packed chunk. -/
structure SourceInfo where
  document : String := "Unknown"
  page : Option Nat := none
  sect : Option String := none   -- the dict's 'section' key (keyword in Lean)
  chunk_id : String := ""
deriving DecidableEq, Repr

def mkSourceInfo (c : RChunk) : SourceInfo :=
  { document := c.doc_title.getD "Unknown"
    page := c.page_numbers.head?
    sect := c.section_title
    chunk_id := c.chunk_id }

structure AssemblyState where
  context_parts : List String := []
  total_tokens : Nat := 0
  sources : List SourceInfo := []
  final_chunks : List RChunk := []
deriving DecidableEq, Repr

/-- The packing loop of `_assemble_context`: accumulate token counts in
priority order and `break` before exceeding the budget. -/
def assembleLoop (budget : Nat) (s : AssemblyState) : List RChunk → AssemblyState
  | [] => s
  | c :: cs =>
      let chunk_tokens := c.token_count.getD 0
      if s.total_tokens + chunk_tokens > budget then s
      else
        let source_info := mkSourceInfo c
        assembleLoop budget
          { context_parts := s.context_parts ++ [format_chunk_for_context c]
            total_tokens := s.total_tokens + chunk_tokens
            sources := if s.sources.contains source_info then s.sources
                       else s.sources ++ [source_info]
            final_chunks := s.final_chunks ++ [c] } cs

structure AssembledContext where
  chunks : List RChunk := []
  context_text : String := ""
  total_tokens : Nat := 0
  sources : List SourceInfo := []
deriving DecidableEq, Repr

/-- `RetrievalPipeline._assemble_context`. -/
def assemble_context (budget : Nat) (chunks : List RChunk)
    (pq : ProcessedQuery) : AssembledContext :=
  let sorted_chunks := prioritize_chunks chunks pq
  let s := assembleLoop budget {} sorted_chunks
  { chunks := s.final_chunks
    context_text := String.intercalate "\n\n---\n\n" s.context_parts
    total_tokens := s.total_tokens
    sources := s.sources }

/-- The dictionary returned by `RetrievalPipeline.retrieve`. -/
structure RetrieveResult where
  chunks : List RChunk := []
  context_text : String := ""
  total_tokens : Nat := 0
  sources : List SourceInfo := []
  search_strategy : String := "hybrid"
  total_retrieved : Nat := 0
  after_reranking : Nat := 0
deriving DecidableEq, Repr

/-- `RetrievalPipeline.retrieve`.  External collaborators are parameters:
`pq` is the `query_processor.process_query` output, `semantic_only` /
`keyword_only` the results of `should_use_semantic_only` /
`should_use_keyword_only`, `kwSearch` the keyword channel, and `rerank` the
external reranking service (consulted only when `rerank_enabled` and more
than one chunk was retrieved). -/
def retrieve (vdb : List VRow) (ndb : RelStore)
    (kwSearch : Nat → Option String → Option String → List RChunk)
    (rerank : List RChunk → Nat → List RChunk)
    (pq : ProcessedQuery) (semantic_only keyword_only : Bool)
    (alpha threshold : ℚ) (budget : Nat) (rerank_enabled : Bool)
    (top_k : Option Nat) (doc_type department : Option String)
    (include_context : Bool) : RetrieveResult :=
  let use_semantic := !(!semantic_only && keyword_only)
  let use_keyword := !semantic_only
  let search_results :=
    if include_context then
      search_with_context_expansion vdb ndb kwSearch alpha threshold
        (top_k.getD retrieval_top_k) true
    else
      let sem := if use_semantic then
          search_similar_chunks vdb ((top_k.getD retrieval_top_k) * 2)
            doc_type department none threshold
        else []
      let kw := if use_keyword then
          kwSearch (top_k.getD retrieval_top_k) doc_type department
        else []
      hybridSearch alpha (top_k.getD retrieval_top_k) sem kw use_semantic use_keyword
  let reranked_results :=
    if rerank_enabled && decide (1 < search_results.length) then
      rerank search_results (top_k.getD rerank_top_k)
    else
      search_results.take (top_k.getD rerank_top_k)
  let final_context := assemble_context budget reranked_results pq
  { chunks := final_context.chunks
    context_text := final_context.context_text
    total_tokens := final_context.total_tokens
    sources := final_context.sources
    search_strategy :=
      if use_semantic && use_keyword then "hybrid"
      else if use_semantic then "semantic" else "keyword"
    total_retrieved := search_results.length
    after_reranking := reranked_results.length }

/-! ### Derived notions used to state the verified properties -/

/-- The chunk ids of a candidate list, in order. -/
def ids (l : List RChunk) : List String := l.map (·.chunk_id)

/-- The dict-key predicate `chunk_id == x`. -/
def byId (x : String) (r : RChunk) : Bool := r.chunk_id == x

/-- The 1-based rank of chunk id `x` in a channel result list (`none` when
absent), as assigned by `enumerate(results, 1)`. -/
def chanRank (l : List RChunk) (x : String) : Option Nat :=
  (l.findIdx? (byId x)).map (· + 1)

/-- The semantic term of the RRF formula for chunk id `x` given the
semantic channel list. -/
def semTerm (alpha : ℚ) (sem : List RChunk) (x : String) : ℚ :=
  match chanRank sem x with
  | some r => (1 / ((rrf_k : ℚ) + r)) * alpha
  | none => 0

/-- The keyword term of the RRF formula for chunk id `x` given the keyword
channel list. -/
def kwTerm (alpha : ℚ) (kw : List RChunk) (x : String) : ℚ :=
  match chanRank kw x with
  | some r => (1 / ((rrf_k : ℚ) + r)) * (1 - alpha)
  | none => 0

/-- Chunk type tag test used by the table boost. -/
def isTable (c : RChunk) : Bool := c.chunk_type == "table"

/-- The table-boost condition of `_prioritize_chunks`: financial/analytical
intent or a monetary entity. -/
def boostCond (pq : ProcessedQuery) : Bool :=
  (pq.intent == "financial" || pq.intent == "analytical") || pq.entities.contains "amount"

/-! ### Concrete inputs used for tests and witnesses -/

/-- Chunk A of the spec's RRF example: rank 1 in the semantic list, absent
from the keyword list. -/
def chA : RChunk := { chunk_id := "A", similarity_score := some (81/100), token_count := some 40 }

/-- Chunk B of the spec's RRF example: rank 1 in the keyword list, absent
from the semantic list. -/
def chB : RChunk := { chunk_id := "B", keyword_score := some (42/10), token_count := some 50 }

/-- A chunk returned by the semantic channel that the keyword channel also
returns (as `kwC`). -/
def semC : RChunk := { chunk_id := "C", similarity_score := some (73/100), token_count := some 30 }

def kwC : RChunk := { chunk_id := "C", keyword_score := some 5, token_count := some 30 }

/-- Joined rows at similarity 0.65 and 0.71 for the threshold test. -/
def vrow65 : VRow := { chunk_id := "x65", document_id := "d1", similarity := 65/100, token_count := 10 }

def vrow71 : VRow := { chunk_id := "x71", document_id := "d1", similarity := 71/100, token_count := 12 }

/-- A completed document of type `memo` with one chunk, visible to both the
vector store and the relational store. -/
def memoRow : VRow :=
  { chunk_id := "m1", document_id := "d1", similarity := 9/10, content := "memo text",
    token_count := 5, doc_filename := "memo.pdf", doc_doc_type := some "memo" }

def memoStore : RelStore :=
  { chunks := [{ id := "m1", document_id := "d1", chunk_index := 0, content := "memo text" }],
    documents := [{ id := "d1", filename := "memo.pdf", doc_type := some "memo" }] }

/-- A relational store that contains chunk `n1` but no chunk `gone`. -/
def wStore : RelStore :=
  { chunks := [{ id := "n1", document_id := "d1", chunk_index := 0, content := "hello" }],
    documents := [{ id := "d1", filename := "doc.pdf" }] }

def wHit : RChunk :=
  { chunk_id := "n1", fused_score := some (1/2), retrieval_method := ["semantic"] }

def wGone : RChunk := { chunk_id := "gone", fused_score := some (1/3) }

/-- A financial-intent processed query. -/
def pqFin : ProcessedQuery := { intent := "financial" }

/-- A table chunk ranked 5th pre-boost among four higher-scored text chunks. -/
def tbl5 : RChunk := { chunk_id := "t", chunk_type := "table", fused_score := some (1/10) }

def txtChunks : List RChunk :=
  [ { chunk_id := "u1", fused_score := some (9/10), token_count := some 10 },
    { chunk_id := "u2", fused_score := some (8/10), token_count := some 10 },
    { chunk_id := "u3", fused_score := some (7/10), token_count := some 10 },
    { chunk_id := "u4", fused_score := some (6/10), token_count := some 10 } ]

/-! ## Lemmas about the stable sorts -/

theorem insertDescBy_perm (lt : α → α → Bool) (x : α) (l : List α) :
    (insertDescBy lt x l).Perm (x :: l) := by
  induction l with
  | nil => simp [insertDescBy]
  | cons y ys ih =>
      unfold insertDescBy
      split
      · exact ((ih.cons y).trans (List.Perm.swap x y ys))
      · exact List.Perm.refl _

theorem sortDescBy_perm (lt : α → α → Bool) (l : List α) :
    (sortDescBy lt l).Perm l := by
  induction l with
  | nil => simp [sortDescBy]
  | cons y ys ih =>
      have : sortDescBy lt (y :: ys) = insertDescBy lt y (sortDescBy lt ys) := rfl
      rw [this]
      exact (insertDescBy_perm lt y (sortDescBy lt ys)).trans (ih.cons y)

theorem mem_sortDescBy {lt : α → α → Bool} {x : α} {l : List α} :
    x ∈ sortDescBy lt l ↔ x ∈ l :=
  (sortDescBy_perm lt l).mem_iff

theorem insertDescBy_pairwise (lt : α → α → Bool)
    (hasym : ∀ a b, lt a b = true → lt b a = false)
    (htrans : ∀ a b c, lt a b = false → lt b c = false → lt a c = false)
    (x : α) (l : List α) (hl : l.Pairwise (fun a b => lt a b = false)) :
    (insertDescBy lt x l).Pairwise (fun a b => lt a b = false) := by
  induction l with
  | nil => simp [insertDescBy]
  | cons y ys ih =>
      rcases List.pairwise_cons.mp hl with ⟨h1, h2⟩
      unfold insertDescBy
      split
      · rename_i hxy
        refine List.pairwise_cons.mpr ⟨?_, ih h2⟩
        intro b hb
        rcases (insertDescBy_perm lt x ys).mem_iff.mp hb with hb'
        rcases List.mem_cons.mp hb' with rfl | hbys
        · exact hasym _ _ hxy
        · exact h1 b hbys
      · rename_i hxy
        refine List.pairwise_cons.mpr ⟨?_, hl⟩
        intro b hb
        rcases List.mem_cons.mp hb with rfl | hbys
        · exact Bool.eq_false_iff.mpr hxy
        · exact htrans x y b (Bool.eq_false_iff.mpr hxy) (h1 b hbys)

theorem sortDescBy_pairwise (lt : α → α → Bool)
    (hasym : ∀ a b, lt a b = true → lt b a = false)
    (htrans : ∀ a b c, lt a b = false → lt b c = false → lt a c = false)
    (l : List α) :
    (sortDescBy lt l).Pairwise (fun a b => lt a b = false) := by
  induction l with
  | nil => simp [sortDescBy]
  | cons y ys ih =>
      exact insertDescBy_pairwise lt hasym htrans y (sortDescBy lt ys) ih

/-- On a list whose elements all tie (the strict comparison never fires in
either direction), the stable descending sort is the identity: ties are
resolved by keeping the original (insertion) order. -/
theorem sortDescBy_of_ties (lt : α → α → Bool) (l : List α)
    (h : ∀ a ∈ l, ∀ b ∈ l, lt a b = false) : sortDescBy lt l = l := by
  induction l with
  | nil => rfl
  | cons y ys ih =>
      have hys : sortDescBy lt ys = ys :=
        ih (fun a ha b hb => h a (List.mem_cons_of_mem _ ha) b (List.mem_cons_of_mem _ hb))
      have : sortDescBy lt (y :: ys) = insertDescBy lt y (sortDescBy lt ys) := rfl
      rw [this, hys]
      cases ys with
      | nil => rfl
      | cons z zs =>
          unfold insertDescBy
          rw [h y (List.mem_cons_self _ _) z (List.mem_cons_of_mem _ (List.mem_cons_self _ _))]
          simp

/-! ## Lemmas about the candidate-pool construction -/

theorem updSem_chunk_id (idx : Nat) (src tgt : RChunk) :
    (updSem idx src tgt).chunk_id = tgt.chunk_id := rfl

theorem updKw_chunk_id (idx : Nat) (src tgt : RChunk) :
    (updKw idx src tgt).chunk_id = tgt.chunk_id := rfl

theorem poolHas_eq_ids_any (pool : List RChunk) (cid : String) :
    poolHas pool cid = (ids pool).any (fun s => s == cid) := by
  induction pool with
  | nil => rfl
  | cons r rs ih =>
      show ((r.chunk_id == cid) || poolHas rs cid)
          = ((r.chunk_id == cid) || (ids rs).any (fun s => s == cid))
      rw [ih]

theorem poolHas_false_iff (pool : List RChunk) (cid : String) :
    poolHas pool cid = false ↔ ∀ r ∈ pool, r.chunk_id ≠ cid := by
  simp [poolHas]

theorem find?_map_upd (pool : List RChunk) (cid x : String) (f : RChunk → RChunk)
    (hf : ∀ r, (f r).chunk_id = r.chunk_id) :
    (pool.map (fun r => if r.chunk_id == cid then f r else r)).find? (byId x) =
      (pool.find? (byId x)).map (fun r => if r.chunk_id == cid then f r else r) := by
  rw [List.find?_map]
  have hcomp : (byId x ∘ fun r => if r.chunk_id == cid then f r else r) = byId x := by
    funext r
    simp only [Function.comp, byId]
    split
    · rw [hf]
    · rfl
  rw [hcomp]

theorem upsertGen_find?_self (pool : List RChunk) (c : RChunk) (f : RChunk → RChunk)
    (hf : ∀ r, (f r).chunk_id = r.chunk_id) :
    ((if poolHas pool c.chunk_id then
        pool.map (fun r => if r.chunk_id == c.chunk_id then f r else r)
      else pool ++ [f c]).find? (byId c.chunk_id)) =
      some (f ((pool.find? (byId c.chunk_id)).getD c)) := by
  split
  next h =>
      rw [find?_map_upd pool c.chunk_id c.chunk_id f hf]
      have hs : (pool.find? (byId c.chunk_id)).isSome = true := by
        rw [List.find?_isSome]
        simpa [poolHas, byId] using h
      obtain ⟨e, he⟩ := Option.isSome_iff_exists.mp hs
      rw [he]
      have hbe : byId c.chunk_id e = true := List.find?_some he
      simp only [byId] at hbe
      simp only [Option.map_some', Option.getD_some]
      rw [if_pos hbe]
  next h =>
      rw [List.find?_append]
      have hnone : pool.find? (byId c.chunk_id) = none := by
        rw [List.find?_eq_none]
        intro r hr
        simp only [byId, beq_iff_eq]
        exact (poolHas_false_iff pool c.chunk_id).mp (Bool.not_eq_true _ ▸ Bool.of_not_eq_true h) r hr
      rw [hnone]
      simp [byId, hf]

theorem upsertGen_find?_other (pool : List RChunk) (c : RChunk) (f : RChunk → RChunk)
    (hf : ∀ r, (f r).chunk_id = r.chunk_id) (x : String) (hx : c.chunk_id ≠ x) :
    ((if poolHas pool c.chunk_id then
        pool.map (fun r => if r.chunk_id == c.chunk_id then f r else r)
      else pool ++ [f c]).find? (byId x)) = pool.find? (byId x) := by
  split
  next h =>
      rw [find?_map_upd pool c.chunk_id x f hf]
      cases he : pool.find? (byId x) with
      | none => rfl
      | some e =>
          have hbe : byId x e = true := List.find?_some he
          simp only [byId, beq_iff_eq] at hbe
          have : (e.chunk_id == c.chunk_id) = false := by
            simp only [beq_eq_false_iff_ne, ne_eq]
            rw [hbe]
            exact fun hcx => hx hcx.symm
          simp only [Option.map_some', this, Bool.false_eq_true, if_false]
  next h =>
      rw [List.find?_append]
      have : List.find? (byId x) [f c] = none := by
        simp [byId, hf, hx]
      rw [this]
      cases pool.find? (byId x) <;> rfl

theorem upsertSem_find?_self (pool : List RChunk) (idx : Nat) (c : RChunk) :
    (upsertSem pool idx c).find? (byId c.chunk_id) =
      some (updSem idx c ((pool.find? (byId c.chunk_id)).getD c)) :=
  upsertGen_find?_self pool c (updSem idx c) (fun _ => rfl)

theorem upsertSem_find?_other (pool : List RChunk) (idx : Nat) (c : RChunk)
    (x : String) (hx : c.chunk_id ≠ x) :
    (upsertSem pool idx c).find? (byId x) = pool.find? (byId x) :=
  upsertGen_find?_other pool c (updSem idx c) (fun _ => rfl) x hx

theorem upsertKw_find?_self (pool : List RChunk) (idx : Nat) (c : RChunk) :
    (upsertKw pool idx c).find? (byId c.chunk_id) =
      some (updKw idx c ((pool.find? (byId c.chunk_id)).getD c)) :=
  upsertGen_find?_self pool c (updKw idx c) (fun _ => rfl)

theorem upsertKw_find?_other (pool : List RChunk) (idx : Nat) (c : RChunk)
    (x : String) (hx : c.chunk_id ≠ x) :
    (upsertKw pool idx c).find? (byId x) = pool.find? (byId x) :=
  upsertGen_find?_other pool c (updKw idx c) (fun _ => rfl) x hx

/-- Channel entries whose id never occurs in the processed list leave the
pool entry for that id untouched (semantic loop). -/
theorem addSem_find?_not_mem (cs : List RChunk) (pool : List RChunk) (idx : Nat)
    (x : String) (h : ∀ c ∈ cs, c.chunk_id ≠ x) :
    (addSemanticResults pool idx cs).find? (byId x) = pool.find? (byId x) := by
  induction cs generalizing pool idx with
  | nil => rfl
  | cons c cs ih =>
      show (addSemanticResults (upsertSem pool idx c) (idx + 1) cs).find? (byId x)
          = pool.find? (byId x)
      rw [ih (upsertSem pool idx c) (idx + 1)
        (fun c' hc' => h c' (List.mem_cons_of_mem _ hc'))]
      exact upsertSem_find?_other pool idx c x (h c (List.mem_cons_self _ _))

theorem addKw_find?_not_mem (cs : List RChunk) (pool : List RChunk) (idx : Nat)
    (x : String) (h : ∀ c ∈ cs, c.chunk_id ≠ x) :
    (addKeywordResults pool idx cs).find? (byId x) = pool.find? (byId x) := by
  induction cs generalizing pool idx with
  | nil => rfl
  | cons c cs ih =>
      show (addKeywordResults (upsertKw pool idx c) (idx + 1) cs).find? (byId x)
          = pool.find? (byId x)
      rw [ih (upsertKw pool idx c) (idx + 1)
        (fun c' hc' => h c' (List.mem_cons_of_mem _ hc'))]
      exact upsertKw_find?_other pool idx c x (h c (List.mem_cons_self _ _))

/-- The pool entry for the id of the channel chunk at 0-based position
`l₁.length` of the semantic list: its semantic rank is the enumeration
index, its semantic score is that chunk's similarity score, and the rest of
the entry is the prior pool entry (or a copy of the channel chunk when the
id is new). -/
theorem addSem_find?_mem (l₁ : List RChunk) (c : RChunk) (l₂ : List RChunk)
    (pool : List RChunk) (idx : Nat)
    (h₁ : ∀ c' ∈ l₁, c'.chunk_id ≠ c.chunk_id)
    (h₂ : ∀ c' ∈ l₂, c'.chunk_id ≠ c.chunk_id) :
    (addSemanticResults pool idx (l₁ ++ c :: l₂)).find? (byId c.chunk_id) =
      some (updSem (idx + l₁.length) c ((pool.find? (byId c.chunk_id)).getD c)) := by
  induction l₁ generalizing pool idx with
  | nil =>
      show (addSemanticResults (upsertSem pool idx c) (idx + 1) l₂).find? (byId c.chunk_id) = _
      rw [addSem_find?_not_mem l₂ _ _ _ h₂, upsertSem_find?_self]
      simp
  | cons a l₁ ih =>
      show (addSemanticResults (upsertSem pool idx a) (idx + 1) (l₁ ++ c :: l₂)).find? (byId c.chunk_id) = _
      rw [ih (upsertSem pool idx a) (idx + 1)
        (fun c' hc' => h₁ c' (List.mem_cons_of_mem _ hc'))]
      rw [upsertSem_find?_other pool idx a c.chunk_id (h₁ a (List.mem_cons_self _ _))]
      have : idx + 1 + l₁.length = idx + (a :: l₁).length := by
        simp
        omega
      rw [this]

theorem addKw_find?_mem (l₁ : List RChunk) (c : RChunk) (l₂ : List RChunk)
    (pool : List RChunk) (idx : Nat)
    (h₁ : ∀ c' ∈ l₁, c'.chunk_id ≠ c.chunk_id)
    (h₂ : ∀ c' ∈ l₂, c'.chunk_id ≠ c.chunk_id) :
    (addKeywordResults pool idx (l₁ ++ c :: l₂)).find? (byId c.chunk_id) =
      some (updKw (idx + l₁.length) c ((pool.find? (byId c.chunk_id)).getD c)) := by
  induction l₁ generalizing pool idx with
  | nil =>
      show (addKeywordResults (upsertKw pool idx c) (idx + 1) l₂).find? (byId c.chunk_id) = _
      rw [addKw_find?_not_mem l₂ _ _ _ h₂, upsertKw_find?_self]
      simp
  | cons a l₁ ih =>
      show (addKeywordResults (upsertKw pool idx a) (idx + 1) (l₁ ++ c :: l₂)).find? (byId c.chunk_id) = _
      rw [ih (upsertKw pool idx a) (idx + 1)
        (fun c' hc' => h₁ c' (List.mem_cons_of_mem _ hc'))]
      rw [upsertKw_find?_other pool idx a c.chunk_id (h₁ a (List.mem_cons_self _ _))]
      have : idx + 1 + l₁.length = idx + (a :: l₁).length := by
        simp
        omega
      rw [this]

theorem ids_upsertGen_pos (pool : List RChunk) (c : RChunk) (f : RChunk → RChunk)
    (hf : ∀ r, (f r).chunk_id = r.chunk_id) (h : poolHas pool c.chunk_id = true) :
    ids (if poolHas pool c.chunk_id then
        pool.map (fun r => if r.chunk_id == c.chunk_id then f r else r)
      else pool ++ [f c]) = ids pool := by
  rw [h]
  simp only [if_true]
  unfold ids
  rw [List.map_map]
  apply List.map_congr_left
  intro a _
  simp only [Function.comp]
  split
  · exact hf a
  · rfl

theorem ids_upsertGen_neg (pool : List RChunk) (c : RChunk) (f : RChunk → RChunk)
    (hf : ∀ r, (f r).chunk_id = r.chunk_id) (h : poolHas pool c.chunk_id = false) :
    ids (if poolHas pool c.chunk_id then
        pool.map (fun r => if r.chunk_id == c.chunk_id then f r else r)
      else pool ++ [f c]) = ids pool ++ [c.chunk_id] := by
  rw [h]
  simp only [Bool.false_eq_true, if_false]
  unfold ids
  rw [List.map_append]
  simp [hf]

theorem ids_upsertSem_pos (pool : List RChunk) (idx : Nat) (c : RChunk)
    (h : poolHas pool c.chunk_id = true) : ids (upsertSem pool idx c) = ids pool :=
  ids_upsertGen_pos pool c (updSem idx c) (fun _ => rfl) h

theorem ids_upsertSem_neg (pool : List RChunk) (idx : Nat) (c : RChunk)
    (h : poolHas pool c.chunk_id = false) :
    ids (upsertSem pool idx c) = ids pool ++ [c.chunk_id] :=
  ids_upsertGen_neg pool c (updSem idx c) (fun _ => rfl) h

theorem ids_upsertKw_pos (pool : List RChunk) (idx : Nat) (c : RChunk)
    (h : poolHas pool c.chunk_id = true) : ids (upsertKw pool idx c) = ids pool :=
  ids_upsertGen_pos pool c (updKw idx c) (fun _ => rfl) h

theorem ids_upsertKw_neg (pool : List RChunk) (idx : Nat) (c : RChunk)
    (h : poolHas pool c.chunk_id = false) :
    ids (upsertKw pool idx c) = ids pool ++ [c.chunk_id] :=
  ids_upsertGen_neg pool c (updKw idx c) (fun _ => rfl) h

theorem ids_cons (c : RChunk) (cs : List RChunk) :
    ids (c :: cs) = c.chunk_id :: ids cs := rfl

/-- The ids of the pool after a channel loop: the prior pool ids followed by
the ids of the channel chunks whose id was not yet in the pool (semantic
loop). -/
theorem ids_addSemanticResults (cs : List RChunk) (pool : List RChunk) (idx : Nat)
    (h : (ids cs).Nodup) :
    ids (addSemanticResults pool idx cs)
      = ids pool ++ ids (cs.filter (fun c => !(poolHas pool c.chunk_id))) := by
  induction cs generalizing pool idx with
  | nil => simp [addSemanticResults, ids]
  | cons c cs ih =>
      rw [ids_cons] at h
      have hcnot : c.chunk_id ∉ ids cs := (List.nodup_cons.mp h).1
      have hnd : (ids cs).Nodup := (List.nodup_cons.mp h).2
      show ids (addSemanticResults (upsertSem pool idx c) (idx + 1) cs) = _
      rw [ih (upsertSem pool idx c) (idx + 1) hnd]
      cases h1 : poolHas pool c.chunk_id with
      | true =>
          rw [ids_upsertSem_pos pool idx c h1]
          have hps : ∀ z ∈ cs, (!(poolHas (upsertSem pool idx c) z.chunk_id))
              = (!(poolHas pool z.chunk_id)) := by
            intro z _
            rw [poolHas_eq_ids_any, poolHas_eq_ids_any, ids_upsertSem_pos pool idx c h1]
          rw [List.filter_congr hps]
          rw [List.filter_cons]
          simp [h1]
      | false =>
          rw [ids_upsertSem_neg pool idx c h1]
          have hps : ∀ z ∈ cs, (!(poolHas (upsertSem pool idx c) z.chunk_id))
              = (!(poolHas pool z.chunk_id)) := by
            intro z hz
            rw [poolHas_eq_ids_any, poolHas_eq_ids_any, ids_upsertSem_neg pool idx c h1,
              List.any_append]
            have hzc : c.chunk_id ≠ z.chunk_id := by
              intro he
              exact hcnot (he ▸ List.mem_map_of_mem (·.chunk_id) hz)
            simp [hzc]
          rw [List.filter_congr hps]
          rw [List.filter_cons]
          simp only [h1, Bool.not_false, if_true]
          rw [ids_cons]
          simp [List.append_assoc]

theorem ids_addKeywordResults (cs : List RChunk) (pool : List RChunk) (idx : Nat)
    (h : (ids cs).Nodup) :
    ids (addKeywordResults pool idx cs)
      = ids pool ++ ids (cs.filter (fun c => !(poolHas pool c.chunk_id))) := by
  induction cs generalizing pool idx with
  | nil => simp [addKeywordResults, ids]
  | cons c cs ih =>
      rw [ids_cons] at h
      have hcnot : c.chunk_id ∉ ids cs := (List.nodup_cons.mp h).1
      have hnd : (ids cs).Nodup := (List.nodup_cons.mp h).2
      show ids (addKeywordResults (upsertKw pool idx c) (idx + 1) cs) = _
      rw [ih (upsertKw pool idx c) (idx + 1) hnd]
      cases h1 : poolHas pool c.chunk_id with
      | true =>
          rw [ids_upsertKw_pos pool idx c h1]
          have hps : ∀ z ∈ cs, (!(poolHas (upsertKw pool idx c) z.chunk_id))
              = (!(poolHas pool z.chunk_id)) := by
            intro z _
            rw [poolHas_eq_ids_any, poolHas_eq_ids_any, ids_upsertKw_pos pool idx c h1]
          rw [List.filter_congr hps]
          rw [List.filter_cons]
          simp [h1]
      | false =>
          rw [ids_upsertKw_neg pool idx c h1]
          have hps : ∀ z ∈ cs, (!(poolHas (upsertKw pool idx c) z.chunk_id))
              = (!(poolHas pool z.chunk_id)) := by
            intro z hz
            rw [poolHas_eq_ids_any, poolHas_eq_ids_any, ids_upsertKw_neg pool idx c h1,
              List.any_append]
            have hzc : c.chunk_id ≠ z.chunk_id := by
              intro he
              exact hcnot (he ▸ List.mem_map_of_mem (·.chunk_id) hz)
            simp [hzc]
          rw [List.filter_congr hps]
          rw [List.filter_cons]
          simp only [h1, Bool.not_false, if_true]
          rw [ids_cons]
          simp [List.append_assoc]

/-- After the semantic loop starting from the empty dict, the pool ids are
exactly the semantic list's ids, in order. -/
theorem ids_semPhase (sem : List RChunk) (hs : (ids sem).Nodup) :
    ids (addSemanticResults [] 1 sem) = ids sem := by
  rw [ids_addSemanticResults sem [] 1 hs]
  have : ∀ c ∈ sem, (!(poolHas [] c.chunk_id)) = true := fun c _ => rfl
  rw [List.filter_congr this]
  simp [ids]

/-- The ids of the full candidate pool: semantic ids first, then the keyword
ids not already present. -/
theorem ids_buildPool (sem kw : List RChunk) (hs : (ids sem).Nodup)
    (hk : (ids kw).Nodup) :
    ids (buildPool sem kw true true)
      = ids sem ++ ids (kw.filter (fun c => !((ids sem).any (fun s => s == c.chunk_id)))) := by
  show ids (addKeywordResults (addSemanticResults [] 1 sem) 1 kw) = _
  rw [ids_addKeywordResults kw _ 1 hk]
  rw [ids_semPhase sem hs]
  have hps : ∀ z ∈ kw, (!(poolHas (addSemanticResults [] 1 sem) z.chunk_id))
      = (!((ids sem).any (fun s => s == z.chunk_id))) := by
    intro z _
    rw [poolHas_eq_ids_any, ids_semPhase sem hs]
  rw [List.filter_congr hps]

theorem nodup_ids_buildPool (sem kw : List RChunk) (hs : (ids sem).Nodup)
    (hk : (ids kw).Nodup) : (ids (buildPool sem kw true true)).Nodup := by
  rw [ids_buildPool sem kw hs hk]
  rw [List.nodup_append]
  refine ⟨hs, ?_, ?_⟩
  · have hsub : ((kw.filter (fun c => !((ids sem).any (fun s => s == c.chunk_id)))).map
        (fun r => r.chunk_id)).Sublist (kw.map (fun r => r.chunk_id)) :=
      List.Sublist.map (fun r => r.chunk_id) (List.filter_sublist kw)
    exact hsub.nodup hk
  · intro x hx hx'
    have hx'' : ∃ c ∈ kw.filter (fun c => !((ids sem).any (fun s => s == c.chunk_id))),
        c.chunk_id = x := List.mem_map.mp hx'
    obtain ⟨c, hc, rfl⟩ := hx''
    have hfc := (List.mem_filter.mp hc).2
    rw [Bool.not_eq_true', List.any_eq_false] at hfc
    exact absurd (beq_self_eq_true c.chunk_id) (hfc c.chunk_id hx)

/-! ## Ranks as positions in the channel lists -/

theorem findIdx?_split (p : α → Bool) (l₁ : List α) (c : α) (l₂ : List α)
    (h₁ : ∀ a ∈ l₁, p a = false) (hc : p c = true) :
    ∀ i, List.findIdx? p (l₁ ++ c :: l₂) i = some (i + l₁.length) := by
  induction l₁ with
  | nil =>
      intro i
      show List.findIdx? p (c :: l₂) i = _
      rw [List.findIdx?_cons, if_pos hc]
      simp
  | cons a l₁ ih =>
      intro i
      show List.findIdx? p (a :: (l₁ ++ c :: l₂)) i = _
      rw [List.findIdx?_cons]
      rw [if_neg (by simp [h₁ a (List.mem_cons_self _ _)])]
      rw [ih (fun a' ha' => h₁ a' (List.mem_cons_of_mem _ ha')) (i + 1)]
      congr 1
      simp
      omega

theorem findIdx?_none (p : α → Bool) (l : List α) (h : ∀ a ∈ l, p a = false) :
    ∀ i, List.findIdx? p l i = none := by
  induction l with
  | nil => intro i; rfl
  | cons a l ih =>
      intro i
      rw [List.findIdx?_cons, if_neg (by simp [h a (List.mem_cons_self _ _)])]
      exact ih (fun a' ha' => h a' (List.mem_cons_of_mem _ ha')) (i + 1)

theorem chanRank_split (l₁ : List RChunk) (c : RChunk) (l₂ : List RChunk)
    (h₁ : ∀ c' ∈ l₁, c'.chunk_id ≠ c.chunk_id) :
    chanRank (l₁ ++ c :: l₂) c.chunk_id = some (l₁.length + 1) := by
  unfold chanRank
  rw [findIdx?_split (byId c.chunk_id) l₁ c l₂
    (fun a ha => by simp [byId, h₁ a ha]) (by simp [byId]) 0]
  simp

theorem chanRank_none (l : List RChunk) (x : String) (h : x ∉ ids l) :
    chanRank l x = none := by
  unfold chanRank
  rw [findIdx?_none (byId x) l (fun a ha => by
    simp only [byId, beq_eq_false_iff_ne, ne_eq]
    intro he
    exact h (he ▸ List.mem_map_of_mem (·.chunk_id) ha)) 0]
  rfl

/-- A member id of a list with distinct ids splits the list uniquely. -/
theorem exists_split_of_mem_ids {l : List RChunk} {x : String}
    (hx : x ∈ ids l) (hnd : (ids l).Nodup) :
    ∃ l₁ c l₂, l = l₁ ++ c :: l₂ ∧ c.chunk_id = x ∧
      (∀ c' ∈ l₁, c'.chunk_id ≠ x) ∧ (∀ c' ∈ l₂, c'.chunk_id ≠ x) := by
  obtain ⟨c, hc, hcx⟩ := List.mem_map.mp hx
  obtain ⟨s, t, rfl⟩ := List.append_of_mem hc
  have hids : ids (s ++ c :: t) = ids s ++ c.chunk_id :: ids t := by
    simp [ids]
  rw [hids] at hnd
  rcases List.nodup_append.mp hnd with ⟨_, hmid, hdisj⟩
  have hxs : c.chunk_id ∉ ids s := fun hmem => hdisj hmem (List.mem_cons_self _ _)
  have hxt : c.chunk_id ∉ ids t := (List.nodup_cons.mp hmid).1
  refine ⟨s, c, t, rfl, hcx, ?_, ?_⟩
  · intro c' hc' he
    exact hxs (hcx ▸ he ▸ List.mem_map_of_mem (·.chunk_id) hc')
  · intro c' hc' he
    exact hxt (hcx ▸ he ▸ List.mem_map_of_mem (·.chunk_id) hc')

/-! ## Characterizing the fused candidate pool -/

theorem find?_reciprocal_rank_fusion (alpha : ℚ) (pool : List RChunk) (x : String) :
    (reciprocal_rank_fusion alpha pool).find? (byId x)
      = (pool.find? (byId x)).map (fuseChunk alpha) := by
  unfold reciprocal_rank_fusion
  rw [List.find?_map]
  congr 1

/-- The entry of the full candidate pool at a given chunk id, by cases on
which channel lists contain the id.  `semPool` abbreviates the pool after
the semantic loop. -/
theorem find?_semPhase_mem (s₁ : List RChunk) (c : RChunk) (s₂ : List RChunk)
    (h₁ : ∀ c' ∈ s₁, c'.chunk_id ≠ c.chunk_id)
    (h₂ : ∀ c' ∈ s₂, c'.chunk_id ≠ c.chunk_id) :
    (addSemanticResults [] 1 (s₁ ++ c :: s₂)).find? (byId c.chunk_id)
      = some (updSem (1 + s₁.length) c c) := by
  rw [addSem_find?_mem s₁ c s₂ [] 1 h₁ h₂]
  rfl

theorem find?_semPhase_not_mem (sem : List RChunk) (x : String)
    (h : x ∉ ids sem) :
    (addSemanticResults [] 1 sem).find? (byId x) = none := by
  rw [addSem_find?_not_mem sem [] 1 x (fun c hc he =>
    h (he ▸ List.mem_map_of_mem (·.chunk_id) hc))]
  rfl

theorem find?_buildPool_both (s₁ : List RChunk) (cs : RChunk) (s₂ : List RChunk)
    (k₁ : List RChunk) (ck : RChunk) (k₂ : List RChunk)
    (hid : ck.chunk_id = cs.chunk_id)
    (hs₁ : ∀ c' ∈ s₁, c'.chunk_id ≠ cs.chunk_id)
    (hs₂ : ∀ c' ∈ s₂, c'.chunk_id ≠ cs.chunk_id)
    (hk₁ : ∀ c' ∈ k₁, c'.chunk_id ≠ ck.chunk_id)
    (hk₂ : ∀ c' ∈ k₂, c'.chunk_id ≠ ck.chunk_id) :
    (buildPool (s₁ ++ cs :: s₂) (k₁ ++ ck :: k₂) true true).find? (byId cs.chunk_id)
      = some (updKw (k₁.length + 1) ck (updSem (s₁.length + 1) cs cs)) := by
  show (addKeywordResults (addSemanticResults [] 1 (s₁ ++ cs :: s₂)) 1
      (k₁ ++ ck :: k₂)).find? (byId cs.chunk_id) = _
  have h1 : (addSemanticResults [] 1 (s₁ ++ cs :: s₂)).find? (byId cs.chunk_id)
      = some (updSem (1 + s₁.length) cs cs) := find?_semPhase_mem s₁ cs s₂ hs₁ hs₂
  have h2 := addKw_find?_mem k₁ ck k₂ (addSemanticResults [] 1 (s₁ ++ cs :: s₂)) 1 hk₁ hk₂
  rw [hid] at h2
  rw [h2, h1]
  have e1 : 1 + s₁.length = s₁.length + 1 := Nat.add_comm 1 _
  have e2 : 1 + k₁.length = k₁.length + 1 := Nat.add_comm 1 _
  rw [e1, e2]
  rfl

theorem find?_buildPool_semOnly (s₁ : List RChunk) (cs : RChunk) (s₂ : List RChunk)
    (kw : List RChunk)
    (hs₁ : ∀ c' ∈ s₁, c'.chunk_id ≠ cs.chunk_id)
    (hs₂ : ∀ c' ∈ s₂, c'.chunk_id ≠ cs.chunk_id)
    (hnotkw : cs.chunk_id ∉ ids kw) :
    (buildPool (s₁ ++ cs :: s₂) kw true true).find? (byId cs.chunk_id)
      = some (updSem (s₁.length + 1) cs cs) := by
  show (addKeywordResults (addSemanticResults [] 1 (s₁ ++ cs :: s₂)) 1 kw).find?
      (byId cs.chunk_id) = _
  rw [addKw_find?_not_mem kw _ 1 cs.chunk_id (fun c hc he =>
    hnotkw (he ▸ List.mem_map_of_mem (·.chunk_id) hc))]
  rw [find?_semPhase_mem s₁ cs s₂ hs₁ hs₂, Nat.add_comm 1 s₁.length]

theorem find?_buildPool_kwOnly (sem : List RChunk)
    (k₁ : List RChunk) (ck : RChunk) (k₂ : List RChunk)
    (hnotsem : ck.chunk_id ∉ ids sem)
    (hk₁ : ∀ c' ∈ k₁, c'.chunk_id ≠ ck.chunk_id)
    (hk₂ : ∀ c' ∈ k₂, c'.chunk_id ≠ ck.chunk_id) :
    (buildPool sem (k₁ ++ ck :: k₂) true true).find? (byId ck.chunk_id)
      = some (updKw (k₁.length + 1) ck ck) := by
  show (addKeywordResults (addSemanticResults [] 1 sem) 1 (k₁ ++ ck :: k₂)).find?
      (byId ck.chunk_id) = _
  rw [addKw_find?_mem k₁ ck k₂ _ 1 hk₁ hk₂]
  rw [find?_semPhase_not_mem sem ck.chunk_id hnotsem, Nat.add_comm 1 k₁.length]
  rfl

/-- Master characterization of the Fusion Engine's output entry for any
chunk id occurring in either channel list: the fused score is exactly the
weighted RRF term of the semantic rank (when present) plus the weighted RRF
term of the keyword rank (when present), and nothing else. -/
theorem fusionPool_formula (alpha : ℚ) (sem kw : List RChunk)
    (hs : (ids sem).Nodup) (hk : (ids kw).Nodup)
    (hsem_clean : ∀ c ∈ sem, c.keyword_rank = none)
    (hkw_clean : ∀ c ∈ kw, c.semantic_rank = none)
    (x : String) (hx : x ∈ ids sem ∨ x ∈ ids kw) :
    ∃ e, (fusionPool alpha sem kw).find? (byId x) = some e ∧
      e.fused_score = some (semTerm alpha sem x + kwTerm alpha kw x) := by
  unfold fusionPool
  rw [find?_reciprocal_rank_fusion]
  by_cases hxs : x ∈ ids sem
  · obtain ⟨s₁, cs, s₂, hsem, hcx, hs₁, hs₂⟩ := exists_split_of_mem_ids hxs hs
    subst hcx
    by_cases hxk : cs.chunk_id ∈ ids kw
    · obtain ⟨k₁, ck, k₂, hkw, hkx, hk₁, hk₂⟩ := exists_split_of_mem_ids hxk hk
      subst hsem
      subst hkw
      rw [find?_buildPool_both s₁ cs s₂ k₁ ck k₂ hkx hs₁ hs₂
        (fun c' hc' h => hk₁ c' hc' (h.trans hkx))
        (fun c' hc' h => hk₂ c' hc' (h.trans hkx))]
      refine ⟨_, rfl, ?_⟩
      have hsr : (updKw (k₁.length + 1) ck (updSem (s₁.length + 1) cs cs)).semantic_rank
          = some (s₁.length + 1) := rfl
      have hkr : (updKw (k₁.length + 1) ck (updSem (s₁.length + 1) cs cs)).keyword_rank
          = some (k₁.length + 1) := rfl
      show some (rrfScore alpha _) = _
      unfold rrfScore
      rw [hsr, hkr]
      unfold semTerm kwTerm
      rw [chanRank_split s₁ cs s₂ hs₁]
      have hck : chanRank (k₁ ++ ck :: k₂) cs.chunk_id = some (k₁.length + 1) := by
        rw [← hkx]
        exact chanRank_split k₁ ck k₂ (fun c' hc' h => hk₁ c' hc' (h.trans hkx))
      rw [hck]
    · subst hsem
      rw [find?_buildPool_semOnly s₁ cs s₂ kw hs₁ hs₂ hxk]
      refine ⟨_, rfl, ?_⟩
      have hkwnone : cs.keyword_rank = none :=
        hsem_clean cs (List.mem_append_right s₁ (List.mem_cons_self _ _))
      have hsr : (updSem (s₁.length + 1) cs cs).semantic_rank = some (s₁.length + 1) := rfl
      have hkr : (updSem (s₁.length + 1) cs cs).keyword_rank = none := hkwnone
      show some (rrfScore alpha _) = _
      unfold rrfScore
      rw [hsr, hkr]
      unfold semTerm kwTerm
      rw [chanRank_split s₁ cs s₂ hs₁]
      rw [chanRank_none kw cs.chunk_id hxk]
  · have hxk : x ∈ ids kw := hx.resolve_left hxs
    obtain ⟨k₁, ck, k₂, hkw, hkx, hk₁, hk₂⟩ := exists_split_of_mem_ids hxk hk
    subst hkx
    subst hkw
    rw [find?_buildPool_kwOnly sem k₁ ck k₂ hxs hk₁ hk₂]
    refine ⟨_, rfl, ?_⟩
    have hsemnone : ck.semantic_rank = none :=
      hkw_clean ck (List.mem_append_right k₁ (List.mem_cons_self _ _))
    have hsr : (updKw (k₁.length + 1) ck ck).semantic_rank = none := hsemnone
    have hkr : (updKw (k₁.length + 1) ck ck).keyword_rank = some (k₁.length + 1) := rfl
    show some (rrfScore alpha _) = _
    unfold rrfScore
    rw [hsr, hkr]
    unfold semTerm kwTerm
    rw [chanRank_split k₁ ck k₂ hk₁]
    rw [chanRank_none sem ck.chunk_id hxs]

/-! ## Comparison-function facts -/

theorem keyLt_asymm (key : α → ℚ) (a b : α) :
    decide (key a < key b) = true → decide (key b < key a) = false := by
  intro h
  rw [decide_eq_true_eq] at h
  rw [decide_eq_false_iff_not]
  exact lt_asymm h

theorem keyLt_transneg (key : α → ℚ) (a b c : α) :
    decide (key a < key b) = false → decide (key b < key c) = false →
    decide (key a < key c) = false := by
  intro h1 h2
  rw [decide_eq_false_iff_not] at h1 h2 ⊢
  intro hac
  exact absurd (lt_of_lt_of_le hac (le_trans (not_lt.mp h2) (not_lt.mp h1))) (lt_irrefl _)

theorem fusedLt_asymm (a b : RChunk) : fusedLt a b = true → fusedLt b a = false := by
  intro h
  exact keyLt_asymm (fun c : RChunk => c.fused_score.getD 0) a b h

theorem fusedLt_transneg (a b c : RChunk) :
    fusedLt a b = false → fusedLt b c = false → fusedLt a c = false := by
  intro h1 h2
  exact keyLt_transneg (fun c : RChunk => c.fused_score.getD 0) a b c h1 h2

theorem simLt_asymm (a b : VRow) : simLt a b = true → simLt b a = false := by
  intro h
  exact keyLt_asymm (fun r : VRow => r.similarity) a b h

theorem simLt_transneg (a b c : VRow) :
    simLt a b = false → simLt b c = false → simLt a c = false := by
  intro h1 h2
  exact keyLt_transneg (fun r : VRow => r.similarity) a b c h1 h2

theorem tupLt_true_iff (a b : Nat × ℚ) :
    tupLt a b = true ↔ (a.1 < b.1 ∨ (a.1 = b.1 ∧ a.2 < b.2)) := by
  simp [tupLt]

theorem tupLt_asymm (a b : Nat × ℚ) : tupLt a b = true → tupLt b a = false := by
  intro h
  rw [Bool.eq_false_iff]
  intro h'
  rw [tupLt_true_iff] at h h'
  rcases h with h | ⟨h1, h2⟩ <;> rcases h' with h' | ⟨h1', h2'⟩
  · omega
  · omega
  · omega
  · exact absurd h2' (lt_asymm h2)

theorem tupLt_transneg (a b c : Nat × ℚ) :
    tupLt a b = false → tupLt b c = false → tupLt a c = false := by
  intro h1 h2
  rw [Bool.eq_false_iff] at h1 h2 ⊢
  intro hac
  rw [tupLt_true_iff] at hac
  have h1' : ¬(a.1 < b.1 ∨ (a.1 = b.1 ∧ a.2 < b.2)) := fun hc => h1 (tupLt_true_iff a b |>.mpr hc)
  have h2' : ¬(b.1 < c.1 ∨ (b.1 = c.1 ∧ b.2 < c.2)) := fun hc => h2 (tupLt_true_iff b c |>.mpr hc)
  push_neg at h1' h2'
  rcases hac with hac | ⟨hac1, hac2⟩
  · omega
  · have hb1 : b.1 = a.1 := by omega
    have hc1 : c.1 = b.1 := by omega
    have hba : b.2 ≤ a.2 := h1'.2 hb1.symm
    have hcb : c.2 ≤ b.2 := h2'.2 hc1.symm
    exact absurd hac2 (not_lt.mpr (le_trans hcb hba))

theorem priLt_asymm (pq : ProcessedQuery) (a b : RChunk) :
    priLt pq a b = true → priLt pq b a = false :=
  fun h => tupLt_asymm _ _ h

theorem priLt_transneg (pq : ProcessedQuery) (a b c : RChunk) :
    priLt pq a b = false → priLt pq b c = false → priLt pq a c = false :=
  fun h1 h2 => tupLt_transneg _ _ _ h1 h2

/-- The first entry with a given id in a split list with no earlier match. -/
theorem find?_split (l₁ : List RChunk) (c : RChunk) (l₂ : List RChunk)
    (h₁ : ∀ c' ∈ l₁, c'.chunk_id ≠ c.chunk_id) :
    (l₁ ++ c :: l₂).find? (byId c.chunk_id) = some c := by
  rw [List.find?_append]
  have hn : l₁.find? (byId c.chunk_id) = none := by
    rw [List.find?_eq_none]
    intro a ha
    simp only [byId, beq_iff_eq]
    exact h₁ a ha
  rw [hn]
  show List.find? (byId c.chunk_id) (c :: l₂) = some c
  rw [List.find?_cons_of_pos]
  simp [byId]

/-! ## Fusion-level corollaries -/

theorem ids_fusionPool (alpha : ℚ) (sem kw : List RChunk) :
    ids (fusionPool alpha sem kw) = ids (buildPool sem kw true true) := by
  unfold fusionPool reciprocal_rank_fusion ids
  rw [List.map_map]
  rfl

theorem mem_ids_buildPool (sem kw : List RChunk) (hs : (ids sem).Nodup)
    (hk : (ids kw).Nodup) (x : String) (hx : x ∈ ids sem ∨ x ∈ ids kw) :
    x ∈ ids (buildPool sem kw true true) := by
  rw [ids_buildPool sem kw hs hk]
  by_cases hxs : x ∈ ids sem
  · exact List.mem_append_left _ hxs
  · have hxk := hx.resolve_left hxs
    apply List.mem_append_right
    obtain ⟨c, hc, rfl⟩ := List.mem_map.mp hxk
    apply List.mem_map_of_mem
    rw [List.mem_filter]
    refine ⟨hc, ?_⟩
    cases hval : (ids sem).any (fun s => s == c.chunk_id) with
    | false => rfl
    | true =>
        exfalso
        obtain ⟨s, hsmem, hseq⟩ := List.any_eq_true.mp hval
        rw [beq_iff_eq] at hseq
        exact hxs (hseq ▸ hsmem)

/-! ## Claim theorems -/

/-- C1: for any pair of channel result lists (with per-list distinct ids and
channel-shaped entries), the fused score assigned to each distinct chunk id
equals `alpha * 1/(60 + semantic_rank)` when the id occurs in the semantic
list, plus `(1 - alpha) * 1/(60 + keyword_rank)` when it occurs in the
keyword list, with no other term; in particular with `alpha = 0.7`, a chunk
at semantic rank 1 absent from keywords scores `0.7/(60+1)`, a chunk at
keyword rank 1 absent from semantics scores `0.3/(60+1)`, and the former is
ordered above the latter. -/
theorem c1_rrf_formula (alpha : ℚ) (sem kw : List RChunk)
    (hs : (ids sem).Nodup) (hk : (ids kw).Nodup)
    (hsem_clean : ∀ c ∈ sem, c.keyword_rank = none)
    (hkw_clean : ∀ c ∈ kw, c.semantic_rank = none) :
    (∀ x, (x ∈ ids sem ∨ x ∈ ids kw) →
      ∃ e, (fusionPool alpha sem kw).find? (byId x) = some e ∧
        e.fused_score = some (semTerm alpha sem x + kwTerm alpha kw x))
    ∧ ((fusionPool hybrid_alpha [chA] [chB]).map (fun c => (c.chunk_id, c.fused_score))
        = [("A", some ((7/10) / (60 + 1))), ("B", some ((3/10) / (60 + 1)))]
      ∧ ids (hybridSearch hybrid_alpha 20 [chA] [chB] true true) = ["A", "B"]) := by
  refine ⟨fusionPool_formula alpha sem kw hs hk hsem_clean hkw_clean, ?_, ?_⟩
  · norm_num +decide [fusionPool, reciprocal_rank_fusion, buildPool, addSemanticResults,
      addKeywordResults, upsertSem, upsertKw, poolHas, fuseChunk, rrfScore, updSem, updKw,
      hybrid_alpha, rrf_k, chA, chB]
  · norm_num +decide [ids, hybridSearch, sortDescBy, insertDescBy, fusedLt, fusionPool,
      reciprocal_rank_fusion, buildPool, addSemanticResults, addKeywordResults, upsertSem,
      upsertKw, poolHas, fuseChunk, rrfScore, updSem, updKw, hybrid_alpha, rrf_k, chA, chB]

theorem c1_rrf_formula_witness :
    ∃ e, (fusionPool hybrid_alpha [chA] [chB]).find? (byId "A") = some e ∧
      e.fused_score = some (semTerm hybrid_alpha [chA] "A" + kwTerm hybrid_alpha [chB] "A") :=
  (c1_rrf_formula hybrid_alpha [chA] [chB] (by decide) (by decide)
    (by decide) (by decide)).1 "A" (Or.inl (by decide))

/-- C4 counterexample: with `top_k = 1`, chunk id `B` appears in the keyword
channel list but not in the Fusion Engine's returned candidate set — the
sorted fused output is truncated to `top_k` inside `search`, before the
downstream reranking/expansion stages. -/
theorem c4_counterexample :
    "B" ∈ ids [chB] ∧ "B" ∉ ids (hybridSearch hybrid_alpha 1 [chA] [chB] true true) := by
  have hout : ids (hybridSearch hybrid_alpha 1 [chA] [chB] true true) = ["A"] := by
    norm_num +decide [ids, hybridSearch, sortDescBy, insertDescBy, fusedLt, fusionPool,
      reciprocal_rank_fusion, buildPool, addSemanticResults, addKeywordResults, upsertSem,
      upsertKw, poolHas, fuseChunk, rrfScore, updSem, updKw, hybrid_alpha, rrf_k, chA, chB]
  refine ⟨by decide, ?_⟩
  rw [hout]
  decide

/-- C4 (amended): the Fusion Engine's output is the full candidate set
sorted descending by fused score and then truncated to `top_k`; every
distinct chunk id of either channel list appears in it whenever the number
of distinct candidates is at most `top_k`. -/
theorem c4_amended_search_truncates (alpha : ℚ) (k : Nat) (sem kw : List RChunk)
    (hs : (ids sem).Nodup) (hk : (ids kw).Nodup) :
    hybridSearch alpha k sem kw true true
        = (sortDescBy fusedLt (fusionPool alpha sem kw)).take k
    ∧ (hybridSearch alpha k sem kw true true).Pairwise (fun a b => fusedLt a b = false)
    ∧ ((fusionPool alpha sem kw).length ≤ k →
        ∀ x, (x ∈ ids sem ∨ x ∈ ids kw) → x ∈ ids (hybridSearch alpha k sem kw true true)) := by
  refine ⟨rfl, ?_, ?_⟩
  · exact List.Pairwise.sublist (List.take_sublist k _)
      (sortDescBy_pairwise fusedLt fusedLt_asymm fusedLt_transneg _)
  · intro hlen x hx
    have hsortlen : (sortDescBy fusedLt (fusionPool alpha sem kw)).length ≤ k := by
      rw [(sortDescBy_perm fusedLt (fusionPool alpha sem kw)).length_eq]
      exact hlen
    have htake : hybridSearch alpha k sem kw true true
        = sortDescBy fusedLt (fusionPool alpha sem kw) := by
      show (sortDescBy fusedLt (fusionPool alpha sem kw)).take k = _
      exact List.take_of_length_le hsortlen
    rw [htake]
    have hperm : (ids (sortDescBy fusedLt (fusionPool alpha sem kw))).Perm
        (ids (fusionPool alpha sem kw)) :=
      (sortDescBy_perm fusedLt (fusionPool alpha sem kw)).map (fun r : RChunk => r.chunk_id)
    rw [hperm.mem_iff, ids_fusionPool]
    exact mem_ids_buildPool sem kw hs hk x hx

theorem c4_amended_search_truncates_witness :
    "A" ∈ ids (hybridSearch hybrid_alpha 20 [chA] [chB] true true) :=
  (c4_amended_search_truncates hybrid_alpha 20 [chA] [chB] (by decide) (by decide)).2.2
    (by decide) "A" (Or.inl (by decide))

/-- C7: a chunk id occurring in both channel lists occurs exactly once in
the Fusion Engine's deduplicated candidate output, and that single entry
records both the semantic rank/score and the keyword rank/score. -/
theorem c7_dedup_both_ranks (alpha : ℚ) (sem kw : List RChunk)
    (hs : (ids sem).Nodup) (hk : (ids kw).Nodup)
    (x : String) (hxs : x ∈ ids sem) (hxk : x ∈ ids kw) :
    (ids (fusionPool alpha sem kw)).count x = 1
    ∧ ∃ e cs ck, (fusionPool alpha sem kw).find? (byId x) = some e
        ∧ sem.find? (byId x) = some cs
        ∧ kw.find? (byId x) = some ck
        ∧ e.semantic_rank = chanRank sem x
        ∧ e.semantic_score = cs.similarity_score
        ∧ e.keyword_rank = chanRank kw x
        ∧ e.keyword_score = some (ck.keyword_score.getD 0) := by
  constructor
  · rw [ids_fusionPool]
    exact List.count_eq_one_of_mem (nodup_ids_buildPool sem kw hs hk)
      (mem_ids_buildPool sem kw hs hk x (Or.inl hxs))
  · obtain ⟨s₁, cs, s₂, hsem, hcx, hs₁, hs₂⟩ := exists_split_of_mem_ids hxs hs
    subst hcx
    obtain ⟨k₁, ck, k₂, hkw, hkx, hk₁, hk₂⟩ := exists_split_of_mem_ids hxk hk
    subst hsem
    subst hkw
    unfold fusionPool
    rw [find?_reciprocal_rank_fusion]
    rw [find?_buildPool_both s₁ cs s₂ k₁ ck k₂ hkx hs₁ hs₂
      (fun c' hc' h => hk₁ c' hc' (h.trans hkx))
      (fun c' hc' h => hk₂ c' hc' (h.trans hkx))]
    refine ⟨_, cs, ck, rfl, find?_split s₁ cs s₂ hs₁, ?_, ?_, rfl, ?_, rfl⟩
    · rw [← hkx]
      exact find?_split k₁ ck k₂ (fun c' hc' h => hk₁ c' hc' (h.trans hkx))
    · rw [chanRank_split s₁ cs s₂ hs₁]
      rfl
    · have hck : chanRank (k₁ ++ ck :: k₂) cs.chunk_id = some (k₁.length + 1) := by
        rw [← hkx]
        exact chanRank_split k₁ ck k₂ (fun c' hc' h => hk₁ c' hc' (h.trans hkx))
      rw [hck]
      rfl

theorem c7_dedup_both_ranks_witness :
    (ids (fusionPool hybrid_alpha [chA, semC] [kwC, chB])).count "C" = 1 :=
  (c7_dedup_both_ranks hybrid_alpha [chA, semC] [kwC, chB] (by decide) (by decide)
    "C" (by decide) (by decide)).1

/-! ## Vector-search lemmas and C5 -/

theorem mem_filterOptStr (q : List VRow) (key : VRow → Option String)
    (o : Option String) (r : VRow) (hr : r ∈ filterOptStr q key o) : r ∈ q := by
  cases o with
  | none => exact hr
  | some t =>
      rw [show filterOptStr q key (some t)
          = if t == "" then q else q.filter (fun r => key r == some t) from rfl] at hr
      by_cases ht : (t == "") = true
      · rw [if_pos ht] at hr
        exact hr
      · rw [if_neg ht] at hr
        exact (List.mem_filter.mp hr).1

theorem mem_filterDocIds (q : List VRow) (o : Option (List String)) (r : VRow)
    (hr : r ∈ filterDocIds q o) : r ∈ q := by
  cases o with
  | none => exact hr
  | some ids =>
      rw [show filterDocIds q (some ids)
          = if ids.isEmpty then q else q.filter (fun r => ids.contains r.document_id) from rfl] at hr
      by_cases hi : ids.isEmpty = true
      · rw [if_pos hi] at hr
        exact hr
      · rw [if_neg hi] at hr
        exact (List.mem_filter.mp hr).1

/-- Provenance of vector-search results: every returned chunk is built from
a store row that passed the `completed`-status filter, and scores at or
above the threshold. -/
theorem mem_search_similar_chunks (db : List VRow) (k : Nat)
    (dt dep : Option String) (dids : Option (List String)) (threshold : ℚ)
    (c : RChunk) (hc : c ∈ search_similar_chunks db k dt dep dids threshold) :
    threshold ≤ c.similarity_score.getD 0
      ∧ ∃ r ∈ db, r.doc_status = "completed" ∧ c = mkVectorChunk r := by
  simp only [search_similar_chunks] at hc
  obtain ⟨r, hrmem, hreq⟩ := List.mem_filterMap.mp hc
  by_cases hthr : r.similarity < threshold
  · rw [if_pos hthr] at hreq
    cases hreq
  · rw [if_neg hthr] at hreq
    obtain rfl : mkVectorChunk r = c := Option.some.inj hreq
    refine ⟨not_lt.mp hthr, ?_⟩
    have h2 := List.take_subset k _ hrmem
    have h3 := mem_sortDescBy.mp h2
    have h4 := mem_filterDocIds _ dids r h3
    have h5 := mem_filterOptStr _ _ dep r h4
    have h6 := mem_filterOptStr _ _ dt r h5
    have h7 := List.mem_filter.mp h6
    exact ⟨r, h7.1, beq_iff_eq.mp h7.2, rfl⟩

/-- C5: every chunk returned by the vector search channel scores at or
above the threshold and comes from a row of a `completed` document; the
list is ordered by similarity descending and has at most `k` entries; in
particular a 0.65-similarity chunk is excluded at threshold 0.7 while a
0.71-similarity chunk is included. -/
theorem c5_vector_threshold (db : List VRow) (k : Nat)
    (dt dep : Option String) (dids : Option (List String)) (threshold : ℚ) :
    (∀ c ∈ search_similar_chunks db k dt dep dids threshold,
        threshold ≤ c.similarity_score.getD 0
        ∧ ∃ r ∈ db, r.doc_status = "completed" ∧ c = mkVectorChunk r)
    ∧ (search_similar_chunks db k dt dep dids threshold).length ≤ k
    ∧ (search_similar_chunks db k dt dep dids threshold).Pairwise
        (fun a b => b.similarity_score.getD 0 ≤ a.similarity_score.getD 0)
    ∧ ids (search_similar_chunks [vrow65, vrow71] 10 none none none (7/10)) = ["x71"] := by
  refine ⟨fun c hc => mem_search_similar_chunks db k dt dep dids threshold c hc, ?_, ?_, ?_⟩
  · simp only [search_similar_chunks]
    refine le_trans (List.length_filterMap_le _ _) ?_
    rw [List.length_take]
    exact min_le_left _ _
  · simp only [search_similar_chunks]
    rw [List.pairwise_filterMap]
    have hrows : ((sortDescBy simLt (filterDocIds (filterOptStr (filterOptStr
        (db.filter (fun r => r.doc_status == "completed"))
        (fun r => r.doc_doc_type) dt) (fun r => r.doc_department) dep) dids)).take k).Pairwise
        (fun a b => simLt a b = false) :=
      List.Pairwise.sublist (List.take_sublist k _)
        (sortDescBy_pairwise simLt simLt_asymm simLt_transneg _)
    refine hrows.imp ?_
    intro a b hab x hx y hy
    by_cases ha : a.similarity < threshold
    · rw [if_pos ha] at hx
      cases hx
    · rw [if_neg ha] at hx
      by_cases hb : b.similarity < threshold
      · rw [if_pos hb] at hy
        cases hy
      · rw [if_neg hb] at hy
        obtain rfl : mkVectorChunk a = x := Option.some.inj (Option.mem_def.mp hx)
        obtain rfl : mkVectorChunk b = y := Option.some.inj (Option.mem_def.mp hy)
        show (mkVectorChunk b).similarity_score.getD 0 ≤ (mkVectorChunk a).similarity_score.getD 0
        have : (decide (a.similarity < b.similarity)) = false := hab
        exact not_lt.mp (of_decide_eq_false this)
  · norm_num +decide [ids, search_similar_chunks, filterOptStr, filterDocIds, sortDescBy,
      insertDescBy, simLt, mkVectorChunk, vrow65, vrow71, List.filterMap_cons]

theorem c5_vector_threshold_witness :
    (7/10 : ℚ) ≤ ((search_similar_chunks [vrow65, vrow71] 10 none none none (7/10)).headD
      {}).similarity_score.getD 0 := by
  have h := (c5_vector_threshold [vrow65, vrow71] 10 none none none (7/10)).1
  have hmem : ((search_similar_chunks [vrow65, vrow71] 10 none none none (7/10)).headD {})
      ∈ search_similar_chunks [vrow65, vrow71] 10 none none none (7/10) := by
    norm_num +decide [search_similar_chunks, filterOptStr, filterDocIds, sortDescBy,
      insertDescBy, simLt, mkVectorChunk, vrow65, vrow71, List.filterMap_cons]
  exact (h _ hmem).1

/-! ## Context assembly: C2, C6 -/

/-- The packing loop keeps the running total within budget, appends a prefix
of its input, and stops exactly at the first chunk that would overflow. -/
theorem assembleLoop_spec (budget : Nat) (l : List RChunk) :
    ∀ s : AssemblyState, s.total_tokens ≤ budget →
    (assembleLoop budget s l).total_tokens ≤ budget
    ∧ ∃ n, (assembleLoop budget s l).final_chunks = s.final_chunks ++ l.take n
        ∧ ∀ c, l[n]? = some c →
            budget < (assembleLoop budget s l).total_tokens + c.token_count.getD 0 := by
  induction l with
  | nil =>
      intro s hs
      exact ⟨hs, 0, by simp [assembleLoop], fun c hc => by simp at hc⟩
  | cons c cs ih =>
      intro s hs
      simp only [assembleLoop]
      by_cases hover : s.total_tokens + c.token_count.getD 0 > budget
      · rw [if_pos hover]
        refine ⟨hs, 0, by simp, ?_⟩
        intro c' hc'
        have hcc : c = c' := by
          rw [List.getElem?_cons_zero] at hc'
          exact Option.some.inj hc'
        rw [← hcc]
        exact hover
      · rw [if_neg hover]
        have hs' : s.total_tokens + c.token_count.getD 0 ≤ budget := not_lt.mp hover
        obtain ⟨h1, n, h2, h3⟩ := ih
          { context_parts := s.context_parts ++ [format_chunk_for_context c]
            total_tokens := s.total_tokens + c.token_count.getD 0
            sources := if s.sources.contains (mkSourceInfo c) then s.sources
                       else s.sources ++ [mkSourceInfo c]
            final_chunks := s.final_chunks ++ [c] } hs'
        refine ⟨h1, n + 1, ?_, ?_⟩
        · rw [h2]
          simp [List.append_assoc]
        · intro c' hc'
          rw [List.getElem?_cons_succ] at hc'
          exact h3 c' hc'

/-- The running total is exactly the sum of the packed chunks' recorded
token counts. -/
theorem assembleLoop_sum (budget : Nat) (l : List RChunk) :
    ∀ s : AssemblyState,
    s.total_tokens = (s.final_chunks.map (fun c => c.token_count.getD 0)).sum →
    (assembleLoop budget s l).total_tokens
      = ((assembleLoop budget s l).final_chunks.map (fun c => c.token_count.getD 0)).sum := by
  induction l with
  | nil =>
      intro s hs
      exact hs
  | cons c cs ih =>
      intro s hs
      simp only [assembleLoop]
      by_cases hover : s.total_tokens + c.token_count.getD 0 > budget
      · rw [if_pos hover]
        exact hs
      · rw [if_neg hover]
        apply ih
        simp only [List.map_append, List.sum_append, List.map_cons, List.map_nil,
          List.sum_cons, List.sum_nil]
        omega

/-- C2: the Context Assembler's output respects the token budget (the total
being exactly the sum of the packed chunks' recorded token counts), is a
prefix of the priority-ordered candidate list (never reordered after
packing), and whenever a candidate is left out, the next priority-ordered
candidate would overflow the budget. -/
theorem c2_token_budget (budget : Nat) (chunks : List RChunk) (pq : ProcessedQuery) :
    (assemble_context budget chunks pq).total_tokens ≤ budget
    ∧ (assemble_context budget chunks pq).total_tokens
        = ((assemble_context budget chunks pq).chunks.map (fun c => c.token_count.getD 0)).sum
    ∧ ∃ n, (assemble_context budget chunks pq).chunks = (prioritize_chunks chunks pq).take n
        ∧ ∀ c, (prioritize_chunks chunks pq)[n]? = some c →
            budget < (assemble_context budget chunks pq).total_tokens + c.token_count.getD 0 := by
  obtain ⟨h1, n, h2, h3⟩ :=
    assembleLoop_spec budget (prioritize_chunks chunks pq) {} (Nat.zero_le _)
  refine ⟨h1, assembleLoop_sum budget (prioritize_chunks chunks pq) {} rfl, n, ?_, h3⟩
  show (assembleLoop budget {} (prioritize_chunks chunks pq)).final_chunks = _
  rw [h2]
  rfl

theorem c2_token_budget_witness :
    (assemble_context 60 [chA, chB] {}).total_tokens ≤ 60 :=
  (c2_token_budget 60 [chA, chB] {}).1

/-- C6: when the query's intent is financial/analytical or it has a
monetary entity, every `table`-type chunk is placed above every non-table
chunk by `_prioritize_chunks`, regardless of rerank or fused scores; in
particular a table chunk ranked 5th pre-boost ends up above all four
higher-scored text chunks. -/
theorem c6_table_boost (chunks : List RChunk) (pq : ProcessedQuery)
    (hcond : boostCond pq = true) :
    (prioritize_chunks chunks pq).Pairwise
        (fun a b => isTable b = true → isTable a = true)
    ∧ ids (prioritize_chunks (txtChunks ++ [tbl5]) pqFin) = ["t", "u1", "u2", "u3", "u4"] := by
  constructor
  · have hp := sortDescBy_pairwise (priLt pq) (priLt_asymm pq) (priLt_transneg pq) chunks
    refine hp.imp ?_
    intro a b hab htb
    cases hta : isTable a with
    | true => rfl
    | false =>
        exfalso
        have hgb : (getPriority pq b).1 = 1000 := by
          simp only [getPriority]
          rw [show (b.chunk_type == "table") = true from htb]
          rw [show ((pq.intent == "financial" || pq.intent == "analytical")
              || pq.entities.contains "amount") = true from hcond]
          rfl
        have hga : (getPriority pq a).1 = 0 := by
          simp only [getPriority]
          rw [show (a.chunk_type == "table") = false from hta]
          rfl
        have htrue : priLt pq a b = true := by
          unfold priLt tupLt
          rw [hga, hgb]
          simp
        exact absurd (htrue.symm.trans hab) (by decide)
  · norm_num +decide [ids, prioritize_chunks, sortDescBy, insertDescBy, priLt, tupLt,
      getPriority, txtChunks, tbl5, pqFin]

theorem c6_table_boost_witness :
    (prioritize_chunks (txtChunks ++ [tbl5]) pqFin).Pairwise
        (fun a b => isTable b = true → isTable a = true) :=
  (c6_table_boost (txtChunks ++ [tbl5]) pqFin (by decide)).1

/-! ## Context expansion: C8, C10, C3 -/

theorem get_chunk_neighbors_missing (ndb : RelStore) (cid : String) (nb na : Nat)
    (h : lookupTargetRow ndb cid = none) : get_chunk_neighbors ndb cid nb na = [] := by
  unfold get_chunk_neighbors
  rw [h]

theorem expandOne_missing (ndb : RelStore) (s : ExpState) (c : RChunk)
    (h : lookupTargetRow ndb c.chunk_id = none) : expandOne ndb s c = s := by
  unfold expandOne
  rw [get_chunk_neighbors_missing ndb c.chunk_id 1 1 h]
  rfl

/-- C8: when the neighbor lookup of one of the (at most five) expanded
candidates finds no stored chunk row, the whole expansion returns exactly
what it would have returned without that candidate — the candidate is
silently skipped and the remaining candidates' results are still
produced (no failure). -/
theorem c8_missing_neighbor_skipped (ndb : RelStore) (l₁ l₂ : List RChunk) (c : RChunk)
    (hmiss : lookupTargetRow ndb c.chunk_id = none) :
    (∀ s : ExpState, expandOne ndb s c = s)
    ∧ ((l₁ ++ c :: l₂).length ≤ 5 →
        expandResults ndb (l₁ ++ c :: l₂) = expandResults ndb (l₁ ++ l₂)) := by
  refine ⟨fun s => expandOne_missing ndb s c hmiss, fun hlen => ?_⟩
  unfold expandResults
  have hlen2 : (l₁ ++ l₂).length ≤ 5 := by
    simp only [List.length_append, List.length_cons] at hlen ⊢
    omega
  rw [List.take_of_length_le hlen, List.take_of_length_le hlen2,
    List.drop_eq_nil_of_le hlen, List.drop_eq_nil_of_le hlen2]
  show (List.foldl (expandOne ndb) {} (l₁ ++ c :: l₂)).expanded
      = (List.foldl (expandOne ndb) {} (l₁ ++ l₂)).expanded
  rw [List.foldl_append, List.foldl_cons, expandOne_missing ndb _ c hmiss,
    ← List.foldl_append]

theorem c8_missing_neighbor_skipped_witness :
    expandResults wStore [wHit, wGone] = expandResults wStore [wHit] :=
  (c8_missing_neighbor_skipped wStore [wHit] [] wGone (by decide)).2 (by decide)

/-- C10: every dictionary produced by `get_chunk_neighbors` lacks the
`token_count` key; `_assemble_context` counts a chunk without that key as
zero tokens; and packing such a chunk never trips the budget check and
leaves the running total unchanged, so expanded-context chunks consume none
of the token budget. -/
theorem c10_neighbors_without_token_count (ndb : RelStore) (cid : String) (nb na : Nat) :
    (∀ c ∈ get_chunk_neighbors ndb cid nb na, c.token_count = none)
    ∧ (∀ c : RChunk, c.token_count = none → c.token_count.getD 0 = 0)
    ∧ (∀ (budget : Nat) (s : AssemblyState) (c : RChunk) (cs : List RChunk),
        s.total_tokens ≤ budget → c.token_count = none →
        assembleLoop budget s (c :: cs) = assembleLoop budget
          { context_parts := s.context_parts ++ [format_chunk_for_context c]
            total_tokens := s.total_tokens
            sources := if s.sources.contains (mkSourceInfo c) then s.sources
                       else s.sources ++ [mkSourceInfo c]
            final_chunks := s.final_chunks ++ [c] } cs) := by
  refine ⟨?_, ?_, ?_⟩
  · intro c hc
    unfold get_chunk_neighbors at hc
    cases h : lookupTargetRow ndb cid with
    | none =>
        rw [h] at hc
        cases hc
    | some td =>
        rw [h] at hc
        obtain ⟨ch, _, rfl⟩ := List.mem_map.mp hc
        rfl
  · intro c hc
    rw [hc]
    rfl
  · intro budget s c cs hle hc
    simp only [assembleLoop, hc, Option.getD_none, Nat.add_zero]
    rw [if_neg (not_lt.mpr hle)]

/-- C3 (code bug): `retrieve` with `include_context = true` silently drops
the `doc_type`/`department` filters — the whole store is searched without
them.  At this input a completed `memo` document's chunk is returned even
though the caller filtered on `doc_type = "policy"`. -/
theorem c3_filters_dropped_eval :
    ids (retrieve [memoRow] memoStore (fun _ _ _ => []) (fun l _ => l) {} false false
      hybrid_alpha similarity_threshold max_context_tokens true none (some "policy") none
      true).chunks = ["m1"]
    ∧ memoRow.doc_doc_type = some "memo" := by
  constructor
  · norm_num +decide [ids, retrieve, search_with_context_expansion, search_similar_chunks,
      filterOptStr, filterDocIds, sortDescBy, insertDescBy, sortAscBy, insertAscBy, simLt,
      mkVectorChunk, hybridSearch, buildPool, addSemanticResults, addKeywordResults,
      upsertSem, upsertKw, poolHas, reciprocal_rank_fusion, fuseChunk, rrfScore, updSem,
      updKw, fusedLt, expandResults, expandOne, addNeighbor, passThrough,
      get_chunk_neighbors, lookupTargetRow, mkNeighborChunk, idxLt, assemble_context,
      prioritize_chunks, priLt, tupLt, getPriority, assembleLoop, mkSourceInfo,
      format_chunk_for_context, retrieval_top_k, rerank_top_k, similarity_threshold,
      hybrid_alpha, max_context_tokens, rrf_k, memoRow, memoStore, List.filterMap_cons]
  · rfl

theorem c10_neighbors_without_token_count_witness :
    ∀ c ∈ get_chunk_neighbors wStore "n1" 1 1, c.token_count = none :=
  (c10_neighbors_without_token_count wStore "n1" 1 1).1

/-! ## Determinism and rank monotonicity: C9 -/

/-- C9: the fusion-and-sort step is a pure function — two runs on identical
channel lists give identical output — ties in the fused score are resolved
deterministically by insertion order (on an all-tied pool the stable sort is
the identity), and the fused score strictly decreases as the rank number in
either channel increases, all else equal (for any weight strictly between 0
and 1, which includes the configured default 0.7). -/
theorem c9_determinism_and_monotonicity (alpha : ℚ) (h0 : 0 < alpha) (h1 : alpha < 1) :
    (∀ (k : Nat) (sem kw : List RChunk) (us uk : Bool),
        hybridSearch alpha k sem kw us uk = hybridSearch alpha k sem kw us uk)
    ∧ (∀ pool : List RChunk,
        (∀ a ∈ reciprocal_rank_fusion alpha pool, ∀ b ∈ reciprocal_rank_fusion alpha pool,
          fusedLt a b = false) →
        sortDescBy fusedLt (reciprocal_rank_fusion alpha pool)
          = reciprocal_rank_fusion alpha pool)
    ∧ (∀ (c : RChunk) (r r' : Nat), r < r' →
        rrfScore alpha { c with semantic_rank := some r' }
          < rrfScore alpha { c with semantic_rank := some r })
    ∧ (∀ (c : RChunk) (r r' : Nat), r < r' →
        rrfScore alpha { c with keyword_rank := some r' }
          < rrfScore alpha { c with keyword_rank := some r }) := by
  have hfrac : ∀ r r' : Nat, r < r' →
      (1 : ℚ) / ((rrf_k : ℚ) + r') < 1 / ((rrf_k : ℚ) + r) := by
    intro r r' hr
    have hk : (0 : ℚ) < (rrf_k : ℚ) := by norm_num [rrf_k]
    have hpos : (0 : ℚ) < (rrf_k : ℚ) + r := add_pos_of_pos_of_nonneg hk (Nat.cast_nonneg r)
    exact one_div_lt_one_div_of_lt hpos (add_lt_add_left (Nat.cast_lt.mpr hr) _)
  refine ⟨fun _ _ _ _ _ => rfl, fun pool h => sortDescBy_of_ties fusedLt _ h, ?_, ?_⟩
  · intro c r r' hr
    have e1 : rrfScore alpha { c with semantic_rank := some r' }
        = (1 / ((rrf_k : ℚ) + r')) * alpha
          + (match c.keyword_rank with
              | some j => (1 / ((rrf_k : ℚ) + j)) * (1 - alpha)
              | none => 0) := rfl
    have e2 : rrfScore alpha { c with semantic_rank := some r }
        = (1 / ((rrf_k : ℚ) + r)) * alpha
          + (match c.keyword_rank with
              | some j => (1 / ((rrf_k : ℚ) + j)) * (1 - alpha)
              | none => 0) := rfl
    rw [e1, e2]
    exact add_lt_add_right (mul_lt_mul_of_pos_right (hfrac r r' hr) h0) _
  · intro c r r' hr
    have e1 : rrfScore alpha { c with keyword_rank := some r' }
        = (match c.semantic_rank with
            | some j => (1 / ((rrf_k : ℚ) + j)) * alpha
            | none => 0)
          + (1 / ((rrf_k : ℚ) + r')) * (1 - alpha) := rfl
    have e2 : rrfScore alpha { c with keyword_rank := some r }
        = (match c.semantic_rank with
            | some j => (1 / ((rrf_k : ℚ) + j)) * alpha
            | none => 0)
          + (1 / ((rrf_k : ℚ) + r)) * (1 - alpha) := rfl
    rw [e1, e2]
    exact add_lt_add_left
      (mul_lt_mul_of_pos_right (hfrac r r' hr) (sub_pos.mpr h1)) _

theorem c9_determinism_and_monotonicity_witness :
    rrfScore (7/10) { ({} : RChunk) with semantic_rank := some 2 }
      < rrfScore (7/10) { ({} : RChunk) with semantic_rank := some 1 } :=
  (c9_determinism_and_monotonicity (7/10) (by norm_num) (by norm_num)).2.2.1 {} 1 2
    (by norm_num)

end Novera
